import Mathlib

/-!
# A verification model of the binance-go client library

Shallow embedding of the two source files of the repository:

* `client/client.go` — the request dispatcher (`Request`, `SignedRequest`)
  and the auto-reconnecting stream loop (`Stream`, `connect`).
* `stream/client.go` — the typed stream wrappers (`Depth`, `Kline`).

Conventions of the embedding:

* Byte strings are `List Nat` with every element intended below 256.
* Go's `url.Values` (a map from key to list of values) is an association
  list with unique keys, built only through `vSet` / `vAdd` starting from
  the empty list, exactly the operations the source uses.
* The standard-library collaborators (`crypto/sha256`, `crypto/hmac`,
  `encoding/hex`, `net/url` escaping) are reproduced from their published
  algorithms, since the source calls them on the signing path and the spec
  makes the signature bytes part of the wire contract.
* `encoding/json` is treated as the external JSON codec collaborator: a
  response body is `Option Json` (`none` when the bytes are not valid
  JSON), and decoding a caller-supplied output shape is an abstract
  function `Option Json → Except String Unit`.  Decoding the exchange
  error shape is concrete, because the `binanceError` struct with its
  `code` / `msg` field tags is declared in the source itself.
-/

set_option autoImplicit false

namespace BinanceGo

/-! ## Bytes, UTF-8 and hex -/

/-- UTF-8 encoding of one code point, as byte values. -/
def utf8EncodeChar (c : Nat) : List Nat :=
  if c < 128 then [c]
  else if c < 2048 then [192 + c / 64, 128 + c % 64]
  else if c < 65536 then [224 + c / 4096, 128 + c / 64 % 64, 128 + c % 64]
  else [240 + c / 262144, 128 + c / 4096 % 64, 128 + c / 64 % 64, 128 + c % 64]

/-- The UTF-8 bytes of a string (Go's `[]byte(s)`). -/
def strBytes (s : String) : List Nat :=
  s.toList.flatMap (fun c => utf8EncodeChar c.toNat)

/-- Lower-case hex digit (`encoding/hex`'s table `0123456789abcdef`). -/
def hexDigit (n : Nat) : Char :=
  if n < 10 then Char.ofNat (48 + n) else Char.ofNat (87 + n)

/-- The two lower-case hex digits of one byte, high nibble first
(`encoding/hex` writes `hextable[b>>4]` then `hextable[b&0x0f]`). -/
def hexByte (b : Nat) : List Char :=
  [hexDigit (b / 16 % 16), hexDigit (b % 16)]

/-- `hex.EncodeToString`: lower-case hex of a byte string. -/
def hexEncodeToString (bs : List Nat) : String :=
  ⟨bs.flatMap hexByte⟩

/-! ## SHA-256 (`crypto/sha256`, FIPS 180-4) -/

/-- Truncation to a 32-bit word. -/
def w32 (x : Nat) : Nat := x % 4294967296

/-- Rotate a 32-bit word right by `n` positions. -/
def rotr32 (n x : Nat) : Nat :=
  w32 ((x >>> n) ||| ((x % 2 ^ n) <<< (32 - n)))

def shaCh (x y z : Nat) : Nat := (x &&& y) ^^^ ((x ^^^ 4294967295) &&& z)

def shaMaj (x y z : Nat) : Nat := (x &&& y) ^^^ (x &&& z) ^^^ (y &&& z)

def bigSigma0 (x : Nat) : Nat := rotr32 2 x ^^^ rotr32 13 x ^^^ rotr32 22 x

def bigSigma1 (x : Nat) : Nat := rotr32 6 x ^^^ rotr32 11 x ^^^ rotr32 25 x

def smallSigma0 (x : Nat) : Nat := rotr32 7 x ^^^ rotr32 18 x ^^^ (x >>> 3)

def smallSigma1 (x : Nat) : Nat := rotr32 17 x ^^^ rotr32 19 x ^^^ (x >>> 10)

/-- The 64 SHA-256 round constants of FIPS 180-4 (in decimal). -/
def shaK : List Nat :=
  [1116352408, 1899447441, 3049323471, 3921009573, 961987163,
   1508970993, 2453635748, 2870763221, 3624381080, 310598401,
   607225278, 1426881987, 1925078388, 2162078206, 2614888103,
   3248222580, 3835390401, 4022224774, 264347078, 604807628,
   770255983, 1249150122, 1555081692, 1996064986, 2554220882,
   2821834349, 2952996808, 3210313671, 3336571891, 3584528711,
   113926993, 338241895, 666307205, 773529912, 1294757372,
   1396182291, 1695183700, 1986661051, 2177026350, 2456956037,
   2730485921, 2820302411, 3259730800, 3345764771, 3516065817,
   3600352804, 4094571909, 275423344, 430227734, 506948616,
   659060556, 883997877, 958139571, 1322822218, 1537002063,
   1747873779, 1955562222, 2024104815, 2227730452, 2361852424,
   2428436474, 2756734187, 3204031479, 3329325298]

/-- Big-endian bytes of `n`, `k` bytes wide. -/
def beBytes : Nat → Nat → List Nat
  | 0, _ => []
  | k + 1, n => beBytes k (n / 256) ++ [n % 256]

/-- A big-endian word from its bytes. -/
def beWord (bs : List Nat) : Nat := bs.foldl (fun a b => a * 256 + b) 0

/-- SHA-256 padding: `0x80`, zeros to 56 mod 64, then the bit length as a
64-bit big-endian integer. -/
def sha256Pad (msg : List Nat) : List Nat :=
  msg ++ 128 :: List.replicate ((119 - msg.length % 64) % 64) 0
      ++ beBytes 8 (8 * msg.length)

/-- Split a list into consecutive chunks of size `n`. -/
def chunksOf {α : Type} : Nat → List α → List (List α)
  | _, [] => []
  | 0, _ :: _ => []
  | k + 1, a :: rest => (a :: rest).take (k + 1) :: chunksOf (k + 1) (rest.drop k)
termination_by _ l => l.length
decreasing_by
  simp only [List.length_drop, List.length_cons]
  exact Nat.lt_succ_of_le (Nat.sub_le _ _)

/-- Extend the 16 message words by `k` more schedule words. -/
def extendSchedule (ws : List Nat) : Nat → List Nat
  | 0 => ws
  | k + 1 =>
    let i := ws.length
    extendSchedule
      (ws ++ [w32 (smallSigma1 (ws.getD (i - 2) 0) + ws.getD (i - 7) 0
                   + smallSigma0 (ws.getD (i - 15) 0) + ws.getD (i - 16) 0)]) k

/-- The eight 32-bit working variables of the compression function. -/
structure Sha8 where
  a : Nat
  b : Nat
  c : Nat
  d : Nat
  e : Nat
  f : Nat
  g : Nat
  hh : Nat
deriving DecidableEq

/-- The SHA-256 initial hash value (in decimal). -/
def shaInit : Sha8 :=
  ⟨1779033703, 3144134277, 1013904242, 2773480762,
   1359893119, 2600822924, 528734635, 1541459225⟩

/-- One compression round, consuming one constant/schedule-word pair. -/
def shaRound (s : Sha8) (kw : Nat × Nat) : Sha8 :=
  let t1 := w32 (s.hh + bigSigma1 s.e + shaCh s.e s.f s.g + kw.1 + kw.2)
  let t2 := w32 (bigSigma0 s.a + shaMaj s.a s.b s.c)
  ⟨w32 (t1 + t2), s.a, s.b, s.c, w32 (s.d + t1), s.e, s.f, s.g⟩

/-- Process one 64-byte block into the running hash value. -/
def shaBlock (st : Sha8) (block : List Nat) : Sha8 :=
  let ws := extendSchedule ((chunksOf 4 block).map beWord) 48
  let r := (shaK.zip ws).foldl shaRound st
  ⟨w32 (st.a + r.a), w32 (st.b + r.b), w32 (st.c + r.c), w32 (st.d + r.d),
   w32 (st.e + r.e), w32 (st.f + r.f), w32 (st.g + r.g), w32 (st.hh + r.hh)⟩

/-- SHA-256 of a byte string, as the 32 digest bytes. -/
def sha256 (msg : List Nat) : List Nat :=
  let fin := (chunksOf 64 (sha256Pad msg)).foldl shaBlock shaInit
  [fin.a, fin.b, fin.c, fin.d, fin.e, fin.f, fin.g, fin.hh].flatMap (beBytes 4)

/-- HMAC-SHA256 (`crypto/hmac` with `sha256.New`): the key is hashed when
longer than the 64-byte block size, zero-padded to the block size, and the
digest is `H((k xor opad) ++ H((k xor ipad) ++ msg))`. -/
def hmacSha256 (key msg : List Nat) : List Nat :=
  let k0 := if 64 < key.length then sha256 key else key
  let kp := k0 ++ List.replicate (64 - k0.length) 0
  sha256 ((kp.map (fun b => b ^^^ 92)) ++ sha256 ((kp.map (fun b => b ^^^ 54)) ++ msg))

/-! ## `net/url` query values

`url.Values` is `map[string][]string`.  The embedding keeps it as an
association list with unique keys; `vSet` and `vAdd` are `Values.Set` and
`Values.Add`, and `vEncode` is `Values.Encode` (keys sorted, every value
percent-escaped, pairs joined with `&`). -/

/-- A query-values map: keys with their value lists. -/
def Values : Type := List (String × List String)

/-- `Values.Set`: replace the value list of `k` by the single value `v`. -/
def vSet (q : Values) (k v : String) : Values :=
  match q with
  | [] => [(k, [v])]
  | (k0, vs) :: rest => if k0 = k then (k, [v]) :: rest else (k0, vs) :: vSet rest k v

/-- `Values.Add`: append `v` to the value list of `k`. -/
def vAdd (q : Values) (k v : String) : Values :=
  match q with
  | [] => [(k, [v])]
  | (k0, vs) :: rest => if k0 = k then (k0, vs ++ [v]) :: rest else (k0, vs) :: vAdd rest k v

/-- Look up the value list of a key. -/
def vGet (q : Values) (k : String) : Option (List String) :=
  match q with
  | [] => none
  | (k0, vs) :: rest => if k0 = k then some vs else vGet rest k

/-- `url.QueryEscape` on one byte: unreserved bytes (alphanumeric and
`-._~`) stay, space becomes `+`, everything else becomes `%XX` with
upper-case hex. -/
def queryEscapeByte (b : Nat) : List Char :=
  if (65 ≤ b ∧ b ≤ 90) ∨ (97 ≤ b ∧ b ≤ 122) ∨ (48 ≤ b ∧ b ≤ 57)
      ∨ b = 45 ∨ b = 46 ∨ b = 95 ∨ b = 126 then
    [Char.ofNat b]
  else if b = 32 then ['+']
  else ['%', if b / 16 % 16 < 10 then Char.ofNat (48 + b / 16 % 16) else Char.ofNat (55 + b / 16 % 16),
        if b % 16 < 10 then Char.ofNat (48 + b % 16) else Char.ofNat (55 + b % 16)]

/-- `url.QueryEscape` of a string, byte by byte over its UTF-8 bytes. -/
def queryEscape (s : String) : String :=
  ⟨(strBytes s).flatMap queryEscapeByte⟩

/-- Insert a string into a sorted list (used to model `sort.Strings`). -/
def insertSorted (x : String) : List String → List String
  | [] => [x]
  | y :: ys => if x ≤ y then x :: y :: ys else y :: insertSorted x ys

/-- `sort.Strings`: the keys of the map in ascending order. -/
def sortStrings (l : List String) : List String := l.foldr insertSorted []

/-- One encoded `key=value` pair. -/
def encodePair (k v : String) : String := queryEscape k ++ "=" ++ queryEscape v

/-- `Values.Encode`: for each key in sorted order, each of its values as an
escaped `key=value` pair, all joined with `&`. -/
def vEncode (q : Values) : String :=
  String.intercalate "&"
    ((sortStrings (q.map Prod.fst)).flatMap
      (fun k => ((vGet q k).getD []).map (encodePair k)))

/-! ## The request dispatcher's query construction (`client/client.go`)

The JSON round trip `json.Marshal(params)` / `json.Unmarshal(&m)` and the
`fmt.Sprintf("%v", v)` stringification flatten the caller's parameter bag
into string key/value pairs; the flattened bag is the embedding's input.
`baseQ` is `url.Query()` of the parsed base URL (empty for a base URL
without a query string, as produced by `New`). -/

/-- The `for k, v := range m { q.Set(k, ...) }` loop shared by `Request`'s
`GET` branch and `SignedRequest`. -/
def setParams (baseQ : Values) (params : List (String × String)) : Values :=
  params.foldl (fun q kv => vSet q kv.1 kv.2) baseQ

/-- `Request`'s resolved raw query for a `GET` call (`url.RawQuery`). -/
def getRawQuery (baseQ : Values) (params : List (String × String)) : String :=
  vEncode (setParams baseQ params)

/-- The timestamp value `SignedRequest` appends: `time.Now().Unix()*1000`
where `Unix()` is whole seconds, so the call-time milliseconds are
truncated to the second before the multiplication. -/
def signedTimestamp (nowMs : Nat) : Nat := nowMs / 1000 * 1000

/-- `SignedRequest`'s query values: the flattened params by `q.Set`, then
`q.Add("timestamp", fmt.Sprintf("%v", time.Now().Unix()*1000))`. -/
def signedQuery (baseQ : Values) (params : List (String × String)) (nowMs : Nat) : Values :=
  vAdd (setParams baseQ params) "timestamp" (toString (signedTimestamp nowMs))

/-- `SignedRequest`'s sent raw query:
`url.RawQuery = q.Encode() + "&signature=" + hex(HMAC-SHA256(secretKey, q.Encode()))`. -/
def signedRawQuery (secretKey : String) (baseQ : Values)
    (params : List (String × String)) (nowMs : Nat) : String :=
  vEncode (signedQuery baseQ params nowMs) ++ "&signature="
    ++ hexEncodeToString (hmacSha256 (strBytes secretKey)
        (strBytes (vEncode (signedQuery baseQ params nowMs))))

/-! ## Response handling (`client/client.go`)

Both `Request` and `SignedRequest` end with the same sequence:
`res, err := a.HTTPClient.Do(req)` followed immediately by
`defer res.Body.Close()` — before `err` is checked, so a failed transport
call (where `res` is nil) dereferences a nil pointer.  Then a non-200
status decodes the body into the source-declared `binanceError` struct and
returns `errors.New(e.Msg)`, discarding the decode error; a 200 status
decodes into the caller's output shape when one was provided. -/

/-- A JSON document, the JSON codec collaborator's value type.  Numbers are
kept as integers: the only numeric field the source decodes is the integer
`code`. -/
inductive Json where
  | num (n : Int)
  | str (s : String)
  | bool (b : Bool)
  | null
  | arr (elems : List Json)
  | obj (fields : List (String × Json))

/-- First field of a JSON object with the given name. -/
def jGet (fields : List (String × Json)) (k : String) : Option Json :=
  match fields with
  | [] => none
  | (k0, v) :: rest => if k0 = k then some v else jGet rest k

/-- An HTTP response as the dispatcher sees it: the status code and the
body as parsed by the JSON codec (`none` when the bytes are not valid
JSON). -/
structure HttpResponse where
  status : Nat
  body : Option Json

/-- The `binanceError` struct declared inside both dispatcher functions,
with JSON tags `code` and `msg`. -/
structure BinanceError where
  code : Int
  msg : String
deriving DecidableEq

/-- `json.Decode(&e)` for the `binanceError` shape: invalid JSON leaves the
zero-valued struct; an object fills each tagged field from a matching key
(missing keys keep the zero value, a wrongly-typed field fails but keeps
whatever else decoded); JSON `null` succeeds leaving the zero value; any
other document fails.  Returns the struct contents and the success flag of
the decode. -/
def decodeBinanceError : Option Json → BinanceError × Bool
  | none => (⟨0, ""⟩, false)
  | some (.obj fs) =>
    let cr : Int × Bool :=
      match jGet fs "code" with
      | none => (0, true)
      | some (.num n) => (n, true)
      | some _ => (0, false)
    let mr : String × Bool :=
      match jGet fs "msg" with
      | none => ("", true)
      | some (.str s) => (s, true)
      | some _ => ("", false)
    (⟨cr.1, mr.1⟩, cr.2 && mr.2)
  | some .null => (⟨0, ""⟩, true)
  | some _ => (⟨0, ""⟩, false)

/-- What a dispatcher call does after `HTTPClient.Do`: crash the process
on a nil dereference, return a non-nil error, or return nil. -/
inductive Outcome where
  | panicked
  | errored (msg : String)
  | ok
deriving DecidableEq

/-- `Request` from the `HTTPClient.Do` result on:  a transport failure
(`Do` returned a nil response and an error) hits `defer res.Body.Close()`
and panics; a non-200 status returns `errors.New(e.Msg)` from the decoded
`binanceError` (the decode error itself is overwritten by that return); a
200 status decodes into the caller's output shape when `out` is non-nil
(`decodeOut = some dec`) and returns that decode's error, else returns the
nil error from `Do`. -/
def requestResult (doResult : Except String HttpResponse)
    (decodeOut : Option (Option Json → Except String Unit)) : Outcome :=
  match doResult with
  | .error _ => .panicked
  | .ok res =>
    if res.status ≠ 200 then
      .errored (decodeBinanceError res.body).1.msg
    else
      match decodeOut with
      | none => .ok
      | some dec =>
        match dec res.body with
        | .ok _ => .ok
        | .error m => .errored m

/-- `SignedRequest` duplicates the same response-handling sequence. -/
def signedRequestResult (doResult : Except String HttpResponse)
    (decodeOut : Option (Option Json → Except String Unit)) : Outcome :=
  match doResult with
  | .error _ => .panicked
  | .ok res =>
    if res.status ≠ 200 then
      .errored (decodeBinanceError res.body).1.msg
    else
      match decodeOut with
      | none => .ok
      | some dec =>
        match dec res.body with
        | .ok _ => .ok
        | .error m => .errored m

/-! ## The stream loop (`client/client.go`, `Stream`)

The goroutine body is a loop over `ReadMessage` results.  A successful
read dispatches the message to the handler (`go handler(m)`) and stays in
the loop.  A read error either reconnects — only when `AutoReconnect` is
set and `reconnects < ReconnectLimit`, incrementing `reconnects` — or
returns, ending the session.  One loop iteration is `streamStep`; a whole
session over a finite trace of read results is `streamRun`. -/

/-- `ReconnectLimit = 10` from the source's `const` block. -/
def ReconnectLimit : Nat := 10

/-- One `ReadMessage` result: a delivered message or a read error. -/
inductive ReadEvent where
  | message (data : List Nat)
  | readError
deriving DecidableEq

/-- The session state: the `reconnects` counter, whether the loop has
returned, and the messages dispatched to the handler so far. -/
structure StreamState where
  reconnects : Nat
  closed : Bool
  delivered : List (List Nat)
deriving DecidableEq

/-- One iteration of the read loop.  A closed session processes nothing. -/
def streamStep (autoReconnect : Bool) (s : StreamState) (e : ReadEvent) : StreamState :=
  if s.closed then s
  else
    match e with
    | .message d => { s with delivered := s.delivered ++ [d] }
    | .readError =>
      if autoReconnect ∧ s.reconnects < ReconnectLimit then
        { s with reconnects := s.reconnects + 1 }
      else
        { s with closed := true }

/-- The state a fresh session starts from: counter `0`, open, nothing
delivered. -/
def initialStreamState : StreamState := ⟨0, false, []⟩

/-- A session over a finite trace of read results. -/
def streamRun (autoReconnect : Bool) (events : List ReadEvent) : StreamState :=
  events.foldl (streamStep autoReconnect) initialStreamState

/-- The payload of a successful read, `none` for a read error. -/
def eventData : ReadEvent → Option (List Nat)
  | .message d => some d
  | .readError => none

/-! ## The typed stream wrappers (`stream/client.go`) -/

/-- `out := Shape{}; json.Unmarshal(d, &out)` with the error ignored:
the decoded value when the codec succeeds, the zero value otherwise. -/
def unmarshalInto {α : Type} (unmarshal : List Nat → Option α) (zeroVal : α)
    (d : List Nat) : α :=
  match unmarshal d with
  | some v => v
  | none => zeroVal

/-- The typed values `Depth`'s wrapper hands to the caller's handler, one
per raw message the session delivered. -/
def depthDeliveries {α : Type} (unmarshal : List Nat → Option α) (zeroVal : α)
    (autoReconnect : Bool) (events : List ReadEvent) : List α :=
  (streamRun autoReconnect events).delivered.map (unmarshalInto unmarshal zeroVal)

/-- The typed values `Kline`'s wrapper hands to the caller's handler, one
per raw message the session delivered. -/
def klineDeliveries {α : Type} (unmarshal : List Nat → Option α) (zeroVal : α)
    (autoReconnect : Bool) (events : List ReadEvent) : List α :=
  (streamRun autoReconnect events).delivered.map (unmarshalInto unmarshal zeroVal)

/-- `strings.ToLower` restricted to its ASCII case mapping (the only case
the exchange's symbols exercise): `A`–`Z` shift down by 32, everything
else is unchanged. -/
def toLowerChar (c : Char) : Char :=
  if 65 ≤ c.toNat ∧ c.toNat ≤ 90 then Char.ofNat (c.toNat + 32) else c

/-- `strings.ToLower` of a string, character by character. -/
def strToLower (s : String) : String :=
  ⟨s.toList.map toLowerChar⟩

/-- `Depth`'s topic: `fmt.Sprintf("%s@depth", strings.ToLower(params.Symbol))`. -/
def depthEndpoint (symbol : String) : String :=
  strToLower symbol ++ "@depth"

/-- `Kline`'s topic:
`fmt.Sprintf("%s@kline_%s", strings.ToLower(params.Symbol), params.Interval)`. -/
def klineEndpoint (symbol interval : String) : String :=
  strToLower symbol ++ "@kline_" ++ interval

/-- `connect`'s dial URL: `wss://stream.binance.com:9443/ws/<endpoint>`. -/
def streamURL (endpoint : String) : String :=
  "wss://stream.binance.com:9443/ws/" ++ endpoint

/-- The `&`-separated components of a query string, used to state where
the signature parameter sits in the string the dispatcher sends. -/
def splitAmp : List Char → List (List Char)
  | [] => [[]]
  | c :: rest =>
    match splitAmp rest with
    | [] => [[]]
    | p :: ps => if c = '&' then [] :: p :: ps else (c :: p) :: ps

/-! ## Lemmas about the stream loop -/

theorem streamStep_closed (a : Bool) (r : Nat) (d : List (List Nat)) (e : ReadEvent) :
    streamStep a ⟨r, true, d⟩ e = ⟨r, true, d⟩ := by
  simp [streamStep]

theorem foldl_streamStep_closed (a : Bool) (evs : List ReadEvent) (r : Nat)
    (d : List (List Nat)) : evs.foldl (streamStep a) ⟨r, true, d⟩ = ⟨r, true, d⟩ := by
  induction evs with
  | nil => rfl
  | cons e evs ih => simpa [streamStep_closed] using ih

theorem streamStep_reconnects_le (a : Bool) (s : StreamState) (e : ReadEvent) :
    s.reconnects ≤ (streamStep a s e).reconnects := by
  cases e with
  | message d => by_cases hc : s.closed <;> simp [streamStep, hc]
  | readError =>
    by_cases hc : s.closed <;> simp [streamStep, hc]
    by_cases hlt : a = true ∧ s.reconnects < ReconnectLimit
    · rw [if_pos hlt]; simp
    · rw [if_neg hlt]

theorem streamStep_reconnects_le_limit (a : Bool) (s : StreamState) (e : ReadEvent)
    (hs : s.reconnects ≤ ReconnectLimit) :
    (streamStep a s e).reconnects ≤ ReconnectLimit := by
  cases e with
  | message d => by_cases hc : s.closed <;> simpa [streamStep, hc] using hs
  | readError =>
    by_cases hc : s.closed <;> simp [streamStep, hc]
    · exact hs
    by_cases hlt : a = true ∧ s.reconnects < ReconnectLimit
    · rw [if_pos hlt]; simpa using hlt.2
    · rw [if_neg hlt]; simpa using hs

theorem foldl_streamStep_le_limit (a : Bool) (evs : List ReadEvent) :
    ∀ s : StreamState, s.reconnects ≤ ReconnectLimit →
      (evs.foldl (streamStep a) s).reconnects ≤ ReconnectLimit := by
  induction evs with
  | nil => intro s hs; simpa using hs
  | cons e evs ih =>
    intro s hs
    exact ih (streamStep a s e) (streamStep_reconnects_le_limit a s e hs)

theorem foldl_no_readError (pre : List ReadEvent) :
    ∀ s : StreamState, s.closed = false → (∀ x ∈ pre, x ≠ ReadEvent.readError) →
      pre.foldl (streamStep false) s
        = ⟨s.reconnects, false, s.delivered ++ pre.filterMap eventData⟩ := by
  induction pre with
  | nil => intro s hs _; cases s; simpa using hs.symm
  | cons x pre ih =>
    intro s hs hx
    cases x with
    | readError => exact absurd rfl (hx _ (List.mem_cons_self _ _))
    | message d =>
      have hstep : streamStep false s (.message d)
          = ⟨s.reconnects, false, s.delivered ++ [d]⟩ := by
        cases s; simp_all [streamStep]
      rw [List.foldl_cons, hstep,
        ih _ rfl (fun y hy => hx y (List.mem_cons_of_mem _ hy))]
      simp [eventData]

/-! ## Claim theorems: the stream subscriber -/

/-- C2: for every stream session the reconnect counter starts at 0, is
monotone along the session (never reset), is incremented only on a read
error with auto-reconnect on and the counter still below the limit of 10,
never exceeds 10, a closed session is terminal, and at ten total
reconnects the next read error closes the session instead of an eleventh
reconnect. -/
theorem reconnect_counter_bounded_monotone :
    (∀ a, (streamRun a []).reconnects = 0)
    ∧ (∀ a evs e,
        (streamRun a evs).reconnects ≤ (streamRun a (evs ++ [e])).reconnects)
    ∧ (∀ a s e, (streamStep a s e).reconnects = s.reconnects
        ∨ ((streamStep a s e).reconnects = s.reconnects + 1
            ∧ s.reconnects < ReconnectLimit ∧ a = true ∧ e = ReadEvent.readError
            ∧ s.closed = false))
    ∧ (∀ a evs, (streamRun a evs).reconnects ≤ ReconnectLimit)
    ∧ (∀ a r d e, streamStep a ⟨r, true, d⟩ e = ⟨r, true, d⟩)
    ∧ (∀ d, streamStep true ⟨ReconnectLimit, false, d⟩ ReadEvent.readError
        = ⟨ReconnectLimit, true, d⟩) := by
  refine ⟨fun a => rfl, ?_, ?_, ?_, streamStep_closed,
    fun d => by simp [streamStep, ReconnectLimit]⟩
  · intro a evs e
    rw [streamRun, streamRun, List.foldl_append]
    exact streamStep_reconnects_le a _ e
  · intro a s e
    cases e with
    | message d => by_cases hc : s.closed <;> simp [streamStep, hc]
    | readError =>
      by_cases hc : s.closed
      · left; simp [streamStep, hc]
      · have hcf : s.closed = false := by simpa using hc
        by_cases hlt : a = true ∧ s.reconnects < ReconnectLimit
        · refine Or.inr ⟨?_, hlt.2, hlt.1, rfl, hcf⟩
          simp [streamStep, hcf, hlt]
        · left
          simp [streamStep, hcf, hlt]
  · intro a evs
    exact foldl_streamStep_le_limit a evs initialStreamState (by simp [initialStreamState])

/-- C7: with auto-reconnect disabled, the first read error ends the
session: the state is closed, no reconnect was ever attempted, and the
handler received exactly the messages read before the failure — none
after it. -/
theorem disabled_reconnect_first_error_terminates
    (pre post : List ReadEvent) (hpre : ∀ x ∈ pre, x ≠ ReadEvent.readError) :
    streamRun false (pre ++ ReadEvent.readError :: post)
      = ⟨0, true, pre.filterMap eventData⟩ := by
  rw [streamRun, List.foldl_append,
    foldl_no_readError pre initialStreamState rfl hpre]
  rw [List.foldl_cons]
  have hstep : streamStep false ⟨0, false, initialStreamState.delivered ++ pre.filterMap eventData⟩
      ReadEvent.readError
      = ⟨0, true, pre.filterMap eventData⟩ := by
    simp [streamStep, initialStreamState]
  rw [show (initialStreamState.reconnects : Nat) = 0 from rfl, hstep,
    foldl_streamStep_closed]

theorem disabled_reconnect_first_error_terminates_witness :
    streamRun false
        [ReadEvent.message [1], ReadEvent.readError, ReadEvent.message [2]]
      = ⟨0, true, [[1]]⟩ := by
  have h := disabled_reconnect_first_error_terminates
    [ReadEvent.message [1]] [ReadEvent.message [2]] (by decide)
  simpa using h

/-- C10: the typed wrappers invoke the caller's handler exactly once per
inbound raw message — one typed value per delivered message, with the
zero value of the shape when the bytes fail to deserialize — and expose
no error channel for the deserialization failure. -/
theorem typed_wrapper_always_invokes_handler {α : Type}
    (unm : List Nat → Option α) (z : α) (auto : Bool) (evs : List ReadEvent) :
    (depthDeliveries unm z auto evs).length = (streamRun auto evs).delivered.length
    ∧ (klineDeliveries unm z auto evs).length = (streamRun auto evs).delivered.length
    ∧ (∀ d ∈ (streamRun auto evs).delivered, unm d = none →
        unmarshalInto unm z d = z
        ∧ z ∈ depthDeliveries unm z auto evs
        ∧ z ∈ klineDeliveries unm z auto evs) := by
  refine ⟨by simp [depthDeliveries], by simp [klineDeliveries], ?_⟩
  intro d hd hnone
  have hz : unmarshalInto unm z d = z := by simp [unmarshalInto, hnone]
  refine ⟨hz, ?_, ?_⟩
  · simpa [depthDeliveries, hz] using List.mem_map_of_mem (unmarshalInto unm z) hd
  · simpa [klineDeliveries, hz] using List.mem_map_of_mem (unmarshalInto unm z) hd

theorem typed_wrapper_always_invokes_handler_witness :
    unmarshalInto (fun _ => (none : Option Nat)) 0 [7] = 0
    ∧ (0 : Nat) ∈ depthDeliveries (fun _ => (none : Option Nat)) 0 true
        [ReadEvent.message [7]] := by
  have h := (typed_wrapper_always_invokes_handler
      (fun _ => (none : Option Nat)) 0 true [ReadEvent.message [7]]).2.2
      [7] (by decide) rfl
  exact ⟨h.1, h.2.1⟩

/-- C9: a depth subscription's topic is the lower-cased symbol followed by
`@depth`, a kline subscription's topic is the lower-cased symbol followed
by `@kline_` and the interval; `BTCUSDT` resolves to `btcusdt@depth` and,
at interval `1m`, to `btcusdt@kline_1m`. -/
theorem subscription_topics :
    (∀ s, depthEndpoint s = strToLower s ++ "@depth")
    ∧ (∀ s i, klineEndpoint s i = strToLower s ++ "@kline_" ++ i)
    ∧ depthEndpoint "BTCUSDT" = "btcusdt@depth"
    ∧ klineEndpoint "BTCUSDT" "1m" = "btcusdt@kline_1m"
    ∧ streamURL (depthEndpoint "BTCUSDT")
        = "wss://stream.binance.com:9443/ws/btcusdt@depth" := by
  exact ⟨fun _ => rfl, fun _ _ => rfl, by decide, by decide, by decide⟩

/-! ## Lemmas about query values -/

theorem vGet_vAdd_self (q : Values) (k v : String) :
    vGet (vAdd q k v) k = some ((vGet q k).getD [] ++ [v]) := by
  induction q with
  | nil => simp [vAdd, vGet]
  | cons kv rest ih =>
    obtain ⟨k0, vs⟩ := kv
    by_cases hk : k0 = k
    · subst hk
      simp [vAdd, vGet]
    · simp [vAdd, vGet, hk, ih]

theorem vGet_vSet_self (q : Values) (k v : String) :
    vGet (vSet q k v) k = some [v] := by
  induction q with
  | nil => simp [vSet, vGet]
  | cons kv rest ih =>
    obtain ⟨k0, vs⟩ := kv
    by_cases hk : k0 = k
    · subst hk
      simp [vSet, vGet]
    · simp [vSet, vGet, hk, ih]

theorem vGet_vSet_ne (q : Values) (k v k0 : String) (hk : k0 ≠ k) :
    vGet (vSet q k v) k0 = vGet q k0 := by
  have hk2 : k ≠ k0 := Ne.symm hk
  induction q with
  | nil => simp [vSet, vGet, hk2]
  | cons kv rest ih =>
    obtain ⟨k1, vs⟩ := kv
    by_cases h1 : k1 = k
    · subst h1
      simp [vSet, vGet, hk2]
    · by_cases h0 : k1 = k0
      · subst h0
        simp [vSet, vGet, h1]
      · simp [vSet, vGet, h1, h0, ih]

/-! ## Claim theorems: the dispatcher's response handling -/

/-- C3 (exhibiting the code bug): when the HTTP transport itself fails,
`HTTPClient.Do` returns a nil response and an error, and both `Request`
and `SignedRequest` hit `defer res.Body.Close()` before checking that
error — a nil-pointer dereference that crashes instead of returning the
error, for every transport failure, distinct from every returned-error
outcome. -/
theorem transport_failure_panics :
    requestResult (.error "connection refused") none = .panicked
    ∧ signedRequestResult (.error "connection refused") none = .panicked
    ∧ (∀ e decOut, requestResult (.error e) decOut = .panicked
        ∧ signedRequestResult (.error e) decOut = .panicked)
    ∧ (∀ m, Outcome.panicked ≠ .errored m)
    ∧ Outcome.panicked ≠ .ok := by
  exact ⟨rfl, rfl, fun e decOut => ⟨rfl, rfl⟩,
    fun m h => Outcome.noConfusion h, fun h => Outcome.noConfusion h⟩

/-- C4: on any non-200 response whose body decodes as the error payload,
`Request` and `SignedRequest` return an error whose message is exactly the
payload's `msg` field; the canned 400 response with code -1100 and
message `Illegal characters` yields exactly that failure message. -/
theorem non200_error_message_from_payload :
    (∀ (res : HttpResponse) (decOut : Option (Option Json → Except String Unit)),
      res.status ≠ 200 → (decodeBinanceError res.body).2 = true →
        requestResult (.ok res) decOut
            = .errored (decodeBinanceError res.body).1.msg
        ∧ signedRequestResult (.ok res) decOut
            = .errored (decodeBinanceError res.body).1.msg)
    ∧ requestResult
        (.ok ⟨400, some (.obj [("code", .num (-1100)), ("msg", .str "Illegal characters")])⟩)
        none = .errored "Illegal characters"
    ∧ signedRequestResult
        (.ok ⟨400, some (.obj [("code", .num (-1100)), ("msg", .str "Illegal characters")])⟩)
        none = .errored "Illegal characters" := by
  refine ⟨?_, by decide, by decide⟩
  intro res decOut hs _
  exact ⟨by simp [requestResult, hs], by simp [signedRequestResult, hs]⟩

theorem non200_error_message_from_payload_witness :
    requestResult (.ok ⟨418, some (.obj [("msg", .str "teapot")])⟩) none
      = .errored "teapot" := by
  have h := (non200_error_message_from_payload.1
    ⟨418, some (.obj [("msg", .str "teapot")])⟩ none (by decide) (by decide)).1
  have he : (decodeBinanceError
      (some (.obj [("msg", .str "teapot")]))).1.msg = "teapot" := by decide
  rw [he] at h
  exact h

/-- C5 counterexample: on a non-200 status an undecodable body does not
surface a decode error — the call returns the same `errored ""` value as
a successfully decoded empty-message payload, so the decode failure is
invisible to the caller. -/
theorem non200_decode_failure_invisible :
    requestResult (.ok ⟨400, none⟩) none = .errored ""
    ∧ requestResult
        (.ok ⟨400, some (.obj [("code", .num 0), ("msg", .str "")])⟩) none
        = .errored ""
    ∧ (decodeBinanceError none).2 = false
    ∧ (decodeBinanceError (some (.obj [("code", .num 0), ("msg", .str "")]))).2 = true
    ∧ signedRequestResult (.ok ⟨400, none⟩) none = .errored "" := by
  exact ⟨by decide, by decide, by decide, by decide, by decide⟩

/-- C5 amended: only on a 200 status is an output-shape decode failure
returned to the caller as the decode error; on a non-200 status the
error-shape decode error is discarded and the call returns an error built
from whatever `msg` was decoded (the empty string when nothing was). -/
theorem decode_error_surfaced_only_on_200 :
    (∀ (res : HttpResponse) (dec : Option Json → Except String Unit) (m : String),
      res.status = 200 → dec res.body = .error m →
        requestResult (.ok res) (some dec) = .errored m
        ∧ signedRequestResult (.ok res) (some dec) = .errored m)
    ∧ (∀ (res : HttpResponse) (decOut : Option (Option Json → Except String Unit)),
      res.status ≠ 200 →
        requestResult (.ok res) decOut
            = .errored (decodeBinanceError res.body).1.msg
        ∧ signedRequestResult (.ok res) decOut
            = .errored (decodeBinanceError res.body).1.msg) := by
  constructor
  · intro res dec m hs hdec
    exact ⟨by simp [requestResult, hs, hdec],
      by simp [signedRequestResult, hs, hdec]⟩
  · intro res decOut hs
    exact ⟨by simp [requestResult, hs], by simp [signedRequestResult, hs]⟩

theorem decode_error_surfaced_only_on_200_witness :
    requestResult (.ok ⟨200, none⟩)
        (some (fun b => match b with
          | none => .error "unexpected end of JSON input"
          | some _ => .ok ()))
      = .errored "unexpected end of JSON input" := by
  exact (decode_error_surfaced_only_on_200.1 ⟨200, none⟩
    (fun b => match b with
      | none => .error "unexpected end of JSON input"
      | some _ => .ok ())
    "unexpected end of JSON input" rfl rfl).1

/-- C6 counterexample: at a call-time clock of 1499827319559 ms since the
epoch, the appended timestamp parameter is 1499827319000 — the value of
`time.Now().Unix()*1000` — not the current time in milliseconds. -/
theorem signed_timestamp_not_call_time_ms :
    signedTimestamp 1499827319559 = 1499827319000
    ∧ vGet (signedQuery [] [] 1499827319559) "timestamp"
        = some ["1499827319000"]
    ∧ ("1499827319000" : String) ≠ "1499827319559" := by
  exact ⟨by decide, by decide, by decide⟩

/-- C6 amended: the timestamp parameter `SignedRequest` appends last into
the query values is the call-time clock truncated to whole seconds and
expressed in milliseconds (`Unix()` seconds times 1000): a multiple of
1000 at most the call-time milliseconds and within 1000 of them. -/
theorem signed_timestamp_truncated_to_seconds (baseQ : Values)
    (params : List (String × String)) (nowMs : Nat) :
    vGet (signedQuery baseQ params nowMs) "timestamp"
      = some ((vGet (setParams baseQ params) "timestamp").getD []
          ++ [toString (signedTimestamp nowMs)])
    ∧ 1000 ∣ signedTimestamp nowMs
    ∧ signedTimestamp nowMs ≤ nowMs
    ∧ nowMs < signedTimestamp nowMs + 1000 := by
  refine ⟨vGet_vAdd_self _ _ _, dvd_mul_left 1000 (nowMs / 1000), ?_, ?_⟩
  · exact Nat.div_mul_le_self nowMs 1000
  · have h1 := Nat.div_add_mod nowMs 1000
    have h2 := Nat.mod_lt nowMs (show 0 < 1000 by norm_num)
    unfold signedTimestamp
    omega

theorem lookup_eq_none_of_not_mem_keys (k : String) (l : List (String × String))
    (hk : k ∉ l.map Prod.fst) : l.lookup k = none := by
  induction l with
  | nil => rfl
  | cons kv rest ih =>
    obtain ⟨k0, v0⟩ := kv
    simp only [List.map_cons, List.mem_cons] at hk
    have hne : (k == k0) = false :=
      beq_eq_false_iff_ne.mpr (fun h => hk (Or.inl h))
    simp only [List.lookup, hne]
    exact ih (fun h => hk (Or.inr h))

theorem lookup_of_mem_nodup (k v : String) (l : List (String × String))
    (hnd : (l.map Prod.fst).Nodup) (hm : (k, v) ∈ l) : l.lookup k = some v := by
  induction l with
  | nil => simp at hm
  | cons kv rest ih =>
    obtain ⟨k0, v0⟩ := kv
    simp only [List.map_cons, List.nodup_cons] at hnd
    rcases List.mem_cons.mp hm with h | h
    · injection h with hk hv
      subst hk; subst hv
      simp [List.lookup]
    · have hkr : k ∈ rest.map Prod.fst := List.mem_map_of_mem Prod.fst h
      have hne : (k == k0) = false :=
        beq_eq_false_iff_ne.mpr (fun he => hnd.1 (he ▸ hkr))
      simp only [List.lookup, hne]
      exact ih hnd.2 h

theorem setParams_vGet (params : List (String × String)) :
    ∀ (baseQ : Values) (k : String), (params.map Prod.fst).Nodup →
      vGet (setParams baseQ params) k
        = (params.lookup k).elim (vGet baseQ k) (fun v => some [v]) := by
  induction params with
  | nil => intro baseQ k _; rfl
  | cons kv rest ih =>
    intro baseQ k hnd
    obtain ⟨k0, v0⟩ := kv
    simp only [List.map_cons, List.nodup_cons] at hnd
    have hfold : setParams baseQ ((k0, v0) :: rest)
        = setParams (vSet baseQ k0 v0) rest := rfl
    rw [hfold, ih (vSet baseQ k0 v0) k hnd.2]
    by_cases hk : k0 = k
    · subst hk
      rw [lookup_eq_none_of_not_mem_keys k0 rest hnd.1]
      simp [List.lookup, vGet_vSet_self]
    · have hne : (k == k0) = false := beq_eq_false_iff_ne.mpr (Ne.symm hk)
      simp only [List.lookup, hne]
      cases h : rest.lookup k with
      | none => simp [vGet_vSet_ne baseQ k0 v0 k (Ne.symm hk)]
      | some v => simp

/-- C8: for every parameter bag with distinct keys, the query a `GET`
`Request` resolves (from an empty base-URL query, as `New`'s base URL
yields) maps exactly the keys of the bag — each key of the bag to its
own stringified value, and nothing else — and the sent raw query string
is the encoding of exactly those values. -/
theorem get_query_exactly_params (params : List (String × String))
    (hnd : (params.map Prod.fst).Nodup) :
    getRawQuery [] params = vEncode (setParams [] params)
    ∧ (∀ k, vGet (setParams [] params) k
        = (params.lookup k).elim none (fun v => some [v]))
    ∧ (∀ k v, (k, v) ∈ params → vGet (setParams [] params) k = some [v])
    ∧ (∀ k, k ∉ params.map Prod.fst → vGet (setParams [] params) k = none) := by
  have hmain : ∀ k, vGet (setParams [] params) k
      = (params.lookup k).elim (vGet [] k) (fun v => some [v]) :=
    fun k => setParams_vGet params [] k hnd
  refine ⟨rfl, fun k => ?_, fun k v hm => ?_, fun k hk => ?_⟩
  · rw [hmain k]; rfl
  · rw [hmain k, lookup_of_mem_nodup k v params hnd hm]; rfl
  · rw [hmain k, lookup_eq_none_of_not_mem_keys k params hk]; rfl

theorem get_query_exactly_params_witness :
    vGet (setParams [] [("limit", "5"), ("symbol", "LTCBTC")]) "limit" = some ["5"]
    ∧ vGet (setParams [] [("limit", "5"), ("symbol", "LTCBTC")]) "recvWindow" = none := by
  have h := get_query_exactly_params [("limit", "5"), ("symbol", "LTCBTC")] (by decide)
  exact ⟨h.2.2.1 "limit" "5" (by decide), h.2.2.2 "recvWindow" (by decide)⟩

/-! ## Lemmas locating the signature parameter -/

theorem splitAmp_ne_nil (xs : List Char) : splitAmp xs ≠ [] := by
  cases xs with
  | nil => simp [splitAmp]
  | cons c rest =>
    simp only [splitAmp]
    cases splitAmp rest with
    | nil => simp
    | cons p ps => by_cases hc : c = '&' <;> simp [hc]

theorem splitAmp_no_amp (xs : List Char) (hx : '&' ∉ xs) : splitAmp xs = [xs] := by
  induction xs with
  | nil => rfl
  | cons c rest ih =>
    have hc : ¬ c = '&' := fun h => hx (h ▸ List.mem_cons_self c rest)
    have hr : splitAmp rest = [rest] := ih (fun h => hx (List.mem_cons_of_mem c h))
    simp [splitAmp, hr, hc, Ne.symm hc]

theorem splitAmp_append_length (xs ys : List Char) :
    2 ≤ (splitAmp (xs ++ '&' :: ys)).length := by
  induction xs with
  | nil =>
    simp only [List.nil_append, splitAmp]
    cases h : splitAmp ys with
    | nil => exact absurd h (splitAmp_ne_nil ys)
    | cons p ps => simp
  | cons c xs ih =>
    simp only [List.cons_append, splitAmp]
    cases h : splitAmp (xs ++ '&' :: ys) with
    | nil => exact absurd h (splitAmp_ne_nil _)
    | cons p ps =>
      rw [h] at ih
      by_cases hc : c = '&'
      · simp [hc]
      · simpa [hc] using ih

theorem splitAmp_append_getLast (xs ys : List Char) :
    (splitAmp (xs ++ '&' :: ys)).getLast? = (splitAmp ys).getLast? := by
  induction xs with
  | nil =>
    simp only [List.nil_append, splitAmp]
    cases h : splitAmp ys with
    | nil => exact absurd h (splitAmp_ne_nil ys)
    | cons p ps => simp [List.getLast?_cons_cons]
  | cons c xs ih =>
    simp only [List.cons_append, splitAmp]
    cases h : splitAmp (xs ++ '&' :: ys) with
    | nil => exact absurd h (splitAmp_ne_nil _)
    | cons p ps =>
      have hlen := splitAmp_append_length xs ys
      rw [h] at ih hlen
      cases ps with
      | nil => simp at hlen
      | cons q qs =>
        by_cases hc : c = '&' <;>
          simp [hc, List.getLast?_cons_cons] <;>
          simpa [List.getLast?_cons_cons] using ih

theorem hexDigit_ne_amp (n : Nat) (hn : n < 16) : hexDigit n ≠ '&' := by
  interval_cases n <;> decide

theorem amp_not_mem_hex (bs : List Nat) : '&' ∉ (hexEncodeToString bs).toList := by
  intro hmem
  have hmem2 : '&' ∈ bs.flatMap hexByte := hmem
  obtain ⟨b, _, hcb⟩ := List.mem_flatMap.mp hmem2
  simp only [hexByte, List.mem_cons, List.not_mem_nil, or_false] at hcb
  rcases hcb with h | h
  · exact hexDigit_ne_amp (b / 16 % 16) (Nat.mod_lt _ (by norm_num)) h.symm
  · exact hexDigit_ne_amp (b % 16) (Nat.mod_lt _ (by norm_num)) h.symm

/-! ## Claim theorem: the signed query's signature parameter -/

/-- C1: the raw query `SignedRequest` sends is the encoded query of the
flattened params plus the appended timestamp, followed by one more
parameter `signature` whose value is the lower-case hex HMAC-SHA256,
keyed by the configured secret key, of exactly that preceding encoded
query string (the signature itself excluded); splitting the sent string
at `&` finds `signature=<hex mac>` as its final component. -/
theorem signature_last_over_exact_prefix (secretKey : String) (baseQ : Values)
    (params : List (String × String)) (nowMs : Nat) :
    signedRawQuery secretKey baseQ params nowMs
      = vEncode (signedQuery baseQ params nowMs) ++ "&signature="
        ++ hexEncodeToString (hmacSha256 (strBytes secretKey)
            (strBytes (vEncode (signedQuery baseQ params nowMs))))
    ∧ (splitAmp (signedRawQuery secretKey baseQ params nowMs).toList).getLast?
      = some (("signature="
          ++ hexEncodeToString (hmacSha256 (strBytes secretKey)
              (strBytes (vEncode (signedQuery baseQ params nowMs))))).toList) := by
  refine ⟨rfl, ?_⟩
  have hsig : '&' ∉ ("signature="
      ++ hexEncodeToString (hmacSha256 (strBytes secretKey)
          (strBytes (vEncode (signedQuery baseQ params nowMs))))).toList := by
    intro hmem
    rcases List.mem_append.mp hmem with h | h
    · revert h; decide
    · exact amp_not_mem_hex (hmacSha256 (strBytes secretKey)
        (strBytes (vEncode (signedQuery baseQ params nowMs)))) h
  have hshape : (signedRawQuery secretKey baseQ params nowMs).toList
      = (vEncode (signedQuery baseQ params nowMs)).toList ++ '&' ::
        ("signature="
          ++ hexEncodeToString (hmacSha256 (strBytes secretKey)
              (strBytes (vEncode (signedQuery baseQ params nowMs))))).toList := by
    show ((vEncode (signedQuery baseQ params nowMs)).toList
        ++ "&signature=".toList
        ++ (hexEncodeToString (hmacSha256 (strBytes secretKey)
            (strBytes (vEncode (signedQuery baseQ params nowMs))))).toList) = _
    simp
  rw [hshape, splitAmp_append_getLast, splitAmp_no_amp _ hsig]
  rfl

end BinanceGo
